import Mathlib

/-!
Verification development for a DPLL-based QBF solver.

The development shallowly embeds the data model and the operations of the
solver: the preprocessor (unit propagation with a QBF admissibility test,
pure-literal elimination, clause simplification), the recursive search
engine, and the duplicate-handling loop of the random instance generator.
Assignment maps are embedded as association lists whose keys are pairwise
distinct on every state the programs construct, so cons, first-key lookup
and first-key erasure coincide with map insert, find and erase.  The
recursive search and the fixpoint loops are embedded with an explicit
fuel parameter; fuel-independence and termination are proved where the
claims need them.  Partial map lookups that the original code performs
with defaulting map access are embedded as total lookups with the same
defaults (block index 0, quantifier EXISTS).
-/

namespace QBF

inductive Quantifier where
  | EXISTS : Quantifier
  | FORALL : Quantifier
deriving DecidableEq, Repr

/-- A literal: a variable paired with a negation flag. -/
structure Literal where
  var : Int
  isNegated : Bool
deriving DecidableEq, Repr

abbrev Clause := List Literal

structure QuantifierBlock where
  type : Quantifier
  vars : List Int
deriving DecidableEq, Repr

/-- Assignment map, embedded as an association list. -/
abbrev Assignments := List (Int × Bool)

/-- Lookup of the first binding of a key, as map find. -/
def lookupA : Assignments → Int → Option Bool
  | [], _ => none
  | (w, b) :: rest, v => if w = v then some b else lookupA rest v

/-- Removal of the first binding of a key, as map erase. -/
def eraseKey (v : Int) : Assignments → Assignments
  | [] => []
  | (w, b) :: rest => if w = v then rest else (w, b) :: eraseKey v rest

/-- Last block index recorded for a variable (blocks update the index map
in order, so a later block overwrites an earlier one). -/
def varBlockIndexFrom : Nat → List QuantifierBlock → Int → Option Nat
  | _, [], _ => none
  | i, b :: rest, v =>
    match varBlockIndexFrom (i + 1) rest v with
    | some j => some j
    | none => if v ∈ b.vars then some i else none

/-- The var-to-block-index map; absent variables default to 0 as with
defaulting map access. -/
def varToBlockIndex (blocks : List QuantifierBlock) (v : Int) : Nat :=
  (varBlockIndexFrom 0 blocks v).getD 0

def varQuantFrom : List QuantifierBlock → Int → Option Quantifier
  | [], _ => none
  | b :: rest, v =>
    match varQuantFrom rest v with
    | some q => some q
    | none => if v ∈ b.vars then some b.type else none

/-- The var-to-quantifier map; absent variables default to EXISTS. -/
def varToQuantifier (blocks : List QuantifierBlock) (v : Int) : Quantifier :=
  (varQuantFrom blocks v).getD Quantifier.EXISTS

/-- Preprocessor state: blocks, matrix and the partial assignment. -/
structure PreState where
  quantifierBlocks : List QuantifierBlock
  clauses : List Clause
  assignments : Assignments
deriving DecidableEq, Repr

/-! ### Clause simplification (preprocessor) -/

/-- Simplify one clause against the assignment: `none` when some literal
is true (clause satisfied), otherwise the clause with the false literals
dropped. -/
def simplifyClause (asg : Assignments) : Clause → Option Clause
  | [] => some []
  | lit :: rest =>
    match lookupA asg lit.var with
    | some b => if b != lit.isNegated then none else simplifyClause asg rest
    | none =>
      match simplifyClause asg rest with
      | none => none
      | some c' => some (lit :: c')

/-- Walk the clause list; `none` signals that a surviving clause became
empty, which collapses the whole result. -/
def simplifyWalk (asg : Assignments) : List Clause → Option (List Clause)
  | [] => some []
  | c :: rest =>
    match simplifyClause asg c with
    | none => simplifyWalk asg rest
    | some c' =>
      if c'.isEmpty then none
      else
        match simplifyWalk asg rest with
        | none => none
        | some l => some (c' :: l)

/-- Clause simplification: drop satisfied clauses, drop false literals,
and collapse to a single empty clause if any surviving clause is empty. -/
def simplifyClauses (asg : Assignments) (clauses : List Clause) : List Clause :=
  (simplifyWalk asg clauses).getD [[]]

/-! ### Pure-literal elimination -/

/-- A literal is pure when its variable occurs and the complement does not. -/
def isPureLiteral (clauses : List Clause) (lit : Literal) : Bool :=
  (clauses.any fun c => c.any fun l => l.var = lit.var) &&
  !(clauses.any fun c => c.any fun l => l.var = lit.var && l.isNegated != lit.isNegated)

/-- Every variable of every block strictly before `blockIndex` is assigned. -/
def allEarlierVariablesAssigned (blocks : List QuantifierBlock)
    (asg : Assignments) (blockIndex : Nat) : Bool :=
  (blocks.take blockIndex).all fun b => b.vars.all fun v => (lookupA asg v).isSome

def canEliminateVariable (st : PreState) (v : Int) : Bool :=
  allEarlierVariablesAssigned st.quantifierBlocks st.assignments
    (varToBlockIndex st.quantifierBlocks v)

/-- The scheduling decision of the pure-literal sweep for one variable,
made against the state at the start of the sweep. -/
def pureDecision (st : PreState) (v : Int) : Option (Int × Bool) :=
  if (lookupA st.assignments v).isSome then none
  else if !canEliminateVariable st v then none
  else if isPureLiteral st.clauses ⟨v, false⟩ ||
      isPureLiteral st.clauses ⟨v, true⟩ then
    some (v, isPureLiteral st.clauses ⟨v, false⟩)
  else none

/-- The assignments scheduled by one pure-literal sweep, walking the
blocks from innermost to outermost. -/
def pureSchedule (st : PreState) : List (Int × Bool) :=
  st.quantifierBlocks.reverse.flatMap fun b => b.vars.filterMap (pureDecision st)

/-- Pure-literal elimination: sweep, apply the scheduled assignments,
then one round of clause simplification when anything changed. -/
def pureLiteralElimination (st : PreState) : PreState × Bool :=
  if (pureSchedule st).isEmpty then (st, false)
  else
    (⟨st.quantifierBlocks,
      simplifyClauses ((pureSchedule st).foldl (fun a p => p :: a)
        st.assignments) st.clauses,
      (pureSchedule st).foldl (fun a p => p :: a) st.assignments⟩, true)

/-! ### Unit propagation -/

/-- All clauses currently containing a literal on `v`. -/
def getRelevantClauses (clauses : List Clause) (v : Int) : List Clause :=
  clauses.filter fun c => c.any fun l => l.var = v

/-- QBF admissibility test for propagating a unit on `v`, as the code
performs it over the relevant clauses. -/
def canPropagateVariable (blocks : List QuantifierBlock) (asg : Assignments)
    (v : Int) (relevant : List Clause) : Bool :=
  match varToQuantifier blocks v with
  | Quantifier.EXISTS =>
    relevant.all fun c => c.all fun lit =>
      if lit.var = v then true
      else !(decide (varToBlockIndex blocks lit.var < varToBlockIndex blocks v) &&
             decide (varToQuantifier blocks lit.var = Quantifier.FORALL) &&
             (lookupA asg lit.var).isNone)
  | Quantifier.FORALL =>
    relevant.all fun c => c.all fun lit =>
      if lit.var = v then true
      else !(decide (varToBlockIndex blocks v < varToBlockIndex blocks lit.var) &&
             decide (varToQuantifier blocks lit.var = Quantifier.EXISTS) &&
             (lookupA asg lit.var).isNone)

/-- Apply the propagation of a unit literal: assign its variable, delete
the clauses it satisfies, and drop its falsified occurrences. -/
def applyUnit (st : PreState) (u : Literal) : PreState :=
  ⟨st.quantifierBlocks,
   (st.clauses.filter fun c =>
      !(c.any fun l => l.var = u.var && l.isNegated == u.isNegated)).map fun c =>
     c.filter fun l => !(l.var = u.var && l.isNegated != u.isNegated),
   (u.var, !u.isNegated) :: st.assignments⟩

/-- The unit clauses of the matrix, paired with their block indices. -/
def collectUnits (st : PreState) : List (Literal × Nat) :=
  st.clauses.filterMap fun c =>
    match c with
    | [l] => some (l, varToBlockIndex st.quantifierBlocks l.var)
    | _ => none

/-- Stable insertion into a list sorted by descending block index. -/
def insertDescBy (x : Literal × Nat) : List (Literal × Nat) → List (Literal × Nat)
  | [] => [x]
  | y :: ys => if y.2 ≤ x.2 then x :: y :: ys else y :: insertDescBy x ys

/-- Stable sort by descending block index (innermost blocks first). -/
def sortUnitsDesc : List (Literal × Nat) → List (Literal × Nat)
  | [] => []
  | x :: xs => insertDescBy x (sortUnitsDesc xs)

/-- One iteration of the propagation loop: scan the sorted unit clauses
and propagate the first admissible one on an unassigned variable. -/
def propagateOnce (st : PreState) : Option (Literal × PreState) :=
  match (sortUnitsDesc (collectUnits st)).find? (fun p =>
      (lookupA st.assignments p.1.var).isNone &&
      canPropagateVariable st.quantifierBlocks st.assignments p.1.var
        (getRelevantClauses st.clauses p.1.var)) with
  | none => none
  | some p => some (p.1, applyUnit st p.1)

def unitPropagateAux : Nat → PreState → PreState × Bool
  | 0, st => (st, false)
  | n + 1, st =>
    match propagateOnce st with
    | none => (st, false)
    | some p => ((unitPropagateAux n p.2).1, true)

/-- The variables of the matrix. -/
def matrixVars (clauses : List Clause) : List Int :=
  clauses.flatMap fun c => c.map (·.var)

/-- The set of unassigned variables appearing in the matrix. -/
def unassignedMatrixVars (st : PreState) : Finset Int :=
  ((matrixVars st.clauses).filter fun v => (lookupA st.assignments v).isNone).toFinset

/-- Fuel for the propagation loop: strictly more than the number of
unassigned variables appearing in the matrix. -/
def upFuel (st : PreState) : Nat := (unassignedMatrixVars st).card + 1

/-- Unit propagation to its inner fixpoint; also reports whether any
propagation was performed. -/
def unitPropagate (st : PreState) : PreState × Bool :=
  unitPropagateAux (upFuel st) st

/-! ### The preprocessing fixpoint loop -/

/-- The variables of the quantifier blocks, in declaration order. -/
def blockVarsList (blocks : List QuantifierBlock) : List Int :=
  blocks.flatMap (·.vars)

/-- Fuel for the outer preprocessing loop. -/
def preFuel (st : PreState) : Nat :=
  (blockVarsList st.quantifierBlocks).length + (matrixVars st.clauses).length + 1

/-- The preprocessing loop: check for an empty clause, then run unit
propagation and pure-literal elimination, repeating while anything
changed.  Returns the final state, the empty-clause flag, and whether
the loop ran to completion within its fuel. -/
def preprocessLoop : Nat → PreState → PreState × Bool × Bool
  | 0, st => (st, false, false)
  | n + 1, st =>
    if st.clauses.any List.isEmpty then (st, true, true)
    else
      if (unitPropagate st).2 ||
          (pureLiteralElimination (unitPropagate st).1).2 then
        preprocessLoop n (pureLiteralElimination (unitPropagate st).1).1
      else ((pureLiteralElimination (unitPropagate st).1).1, false, true)

/-- `preprocess`: run the loop and return the final state, the boolean
the code returns (false exactly in the empty-clause case), and the
completion flag of the loop. -/
def preprocess (st : PreState) : PreState × Bool × Bool :=
  ((preprocessLoop (preFuel st) st).1,
   (preprocessLoop (preFuel st) st).1.clauses.isEmpty ||
     (!(preprocessLoop (preFuel st) st).2.1 &&
      !(preprocessLoop (preFuel st) st).1.clauses.isEmpty),
   (preprocessLoop (preFuel st) st).2.2)

/-! ### The recursive search engine -/

inductive Result where
  | SAT : Result
  | UNSAT : Result
deriving DecidableEq, Repr

/-- Working state of the search engine: its clause set and assignment. -/
structure SState where
  clauses : List Clause
  assignments : Assignments
deriving DecidableEq, Repr

def hasEmptyClause (clauses : List Clause) : Bool :=
  clauses.any List.isEmpty

/-- First unassigned variable in quantifier-block order, `-1` when every
block variable is assigned. -/
def findNextUnassignedVar (blocks : List QuantifierBlock) (asg : Assignments) :
    Int :=
  ((blockVarsList blocks).find? fun v => (lookupA asg v).isNone).getD (-1)

/-- Simplify one clause for the single assignment `v := value`: `none`
when a literal on `v` is true, otherwise the clause with the false
occurrences of `v` dropped. -/
def simplifyLitsWith (v : Int) (value : Bool) : Clause → Option Clause
  | [] => some []
  | lit :: rest =>
    if lit.var = v then
      if value != lit.isNegated then none else simplifyLitsWith v value rest
    else
      match simplifyLitsWith v value rest with
      | none => none
      | some c' => some (lit :: c')

/-- Single-assignment simplification of the clause set. -/
def simplifyWithAssignment (clauses : List Clause) (v : Int) (value : Bool) :
    List Clause :=
  clauses.filterMap (simplifyLitsWith v value)

/-- Decide `v := b`: record the assignment and simplify the clause set. -/
def branchState (s : SState) (v : Int) (b : Bool) : SState :=
  ⟨simplifyWithAssignment s.clauses v b, (v, b) :: s.assignments⟩

/-- Backtrack: unassign `v` and restore the saved clause set. -/
def restoreUnassign (saved : List Clause) (v : Int) (s : SState) : SState :=
  ⟨saved, eraseKey v s.assignments⟩

/-- The recursive search, with fuel.  The second branch of a decision
starts from the state the first branch returned, with the decision
variable unassigned and the clause set restored; SAT returns do not
back out their assignments. -/
def solveRec (blocks : List QuantifierBlock) : Nat → SState → Result × SState
  | 0, s => (Result.UNSAT, s)
  | n + 1, s =>
    if hasEmptyClause s.clauses then (Result.UNSAT, s)
    else if s.clauses.isEmpty then (Result.SAT, s)
    else if findNextUnassignedVar blocks s.assignments = -1 then
      (if hasEmptyClause s.clauses then Result.UNSAT else Result.SAT, s)
    else
      let v := findNextUnassignedVar blocks s.assignments
      if varToQuantifier blocks v = Quantifier.EXISTS then
        let r1 := solveRec blocks n (branchState s v true)
        if r1.1 = Result.SAT then (Result.SAT, r1.2)
        else
          let r2 := solveRec blocks n
            (branchState (restoreUnassign s.clauses v r1.2) v false)
          if r2.1 = Result.SAT then (Result.SAT, r2.2)
          else (Result.UNSAT, restoreUnassign s.clauses v r2.2)
      else
        let r1 := solveRec blocks n (branchState s v true)
        if r1.1 = Result.UNSAT then
          (Result.UNSAT, restoreUnassign s.clauses v r1.2)
        else
          let r2 := solveRec blocks n
            (branchState (restoreUnassign s.clauses v r1.2) v false)
          if r2.1 = Result.UNSAT then
            (Result.UNSAT, restoreUnassign s.clauses v r2.2)
          else (Result.SAT, r2.2)

/-- Number of unassigned variables of the quantifier blocks. -/
def unassignedCount (blocks : List QuantifierBlock) (asg : Assignments) : Nat :=
  (blockVarsList blocks).countP fun v => (lookupA asg v).isNone

/-- The recursive search at sufficient fuel. -/
def solveR (blocks : List QuantifierBlock) (s : SState) : Result × SState :=
  solveRec blocks (unassignedCount blocks s.assignments + 1) s

/-- The engine entry point: copy the preprocessor state and search. -/
def solve (pre : PreState) : Result × SState :=
  if pre.clauses.isEmpty then (Result.SAT, ⟨pre.clauses, pre.assignments⟩)
  else if hasEmptyClause pre.clauses then
    (Result.UNSAT, ⟨pre.clauses, pre.assignments⟩)
  else solveR pre.quantifierBlocks ⟨pre.clauses, pre.assignments⟩

/-! ### The random instance generator, duplicate handling -/

/-- Generator clause: the literal sequence as signed integers. -/
abbrev GClause := List Int

/-- State of the clause-generation loop: the stored clauses, the
consecutive-duplicate counter, the index of the next candidate, and the
abort flag. -/
structure GenState where
  stored : List GClause
  tries : Nat
  idx : Nat
  aborted : Bool
deriving DecidableEq, Repr

def genInit : GenState := ⟨[], 0, 0, false⟩

/-- One iteration of the generation loop on the next candidate clause:
store it if new (resetting the counter), otherwise discard it and bump
the counter, aborting when the counter already equals the limit. -/
def genStep (cands : Nat → GClause) (limit : Nat) (st : GenState) : GenState :=
  if st.stored.contains (cands st.idx) then
    if st.tries = limit then { st with aborted := true }
    else { st with tries := st.tries + 1, idx := st.idx + 1 }
  else
    { st with stored := st.stored ++ [cands st.idx], tries := 0, idx := st.idx + 1 }

/-- The generation loop: run until the requested number of clauses is
stored or generation aborted. -/
def genRun (cands : Nat → GClause) (limit numClauses : Nat) :
    Nat → GenState → GenState
  | 0, st => st
  | n + 1, st =>
    if st.aborted || numClauses ≤ st.stored.length then st
    else genRun cands limit numClauses n (genStep cands limit st)

/-- The whole generation phase at generous fuel. -/
def blocksqbfGen (cands : Nat → GClause) (limit numClauses : Nat) : GenState :=
  genRun cands limit numClauses ((numClauses + 1) * (limit + 1) + 1) genInit

/-! ### Basic lemmas on assignment lists -/

@[simp]
theorem lookupA_nil (v : Int) : lookupA [] v = none := rfl

@[simp]
theorem lookupA_cons (w : Int) (b : Bool) (rest : Assignments) (v : Int) :
    lookupA ((w, b) :: rest) v = if w = v then some b else lookupA rest v := rfl

theorem lookupA_eraseKey_ne (v w : Int) (asg : Assignments) (h : v ≠ w) :
    lookupA (eraseKey v asg) w = lookupA asg w := by
  induction asg with
  | nil => rfl
  | cons p rest ih =>
    obtain ⟨u, b⟩ := p
    by_cases hu : u = v
    · simp [eraseKey, hu, h]
    · simp only [eraseKey, if_neg hu, lookupA_cons, ih]

/-! ### Simplification lemmas (claims C6 and C7) -/

theorem simplifyWalk_no_empty (asg : Assignments) (cs : List Clause)
    (l : List Clause) (h : simplifyWalk asg cs = some l) : [] ∉ l := by
  induction cs generalizing l with
  | nil =>
    simp only [simplifyWalk] at h
    cases h
    simp
  | cons c rest ih =>
    cases hc : simplifyClause asg c with
    | none =>
      simp only [simplifyWalk, hc] at h
      exact ih l h
    | some c' =>
      cases hw : simplifyWalk asg rest with
      | none =>
        simp only [simplifyWalk, hc, hw] at h
        split at h <;> cases h
      | some L =>
        simp only [simplifyWalk, hc, hw] at h
        split at h
        · cases h
        · rename_i hne
          cases h
          intro hmem
          rcases List.mem_cons.mp hmem with hh | ht
          · rw [← hh] at hne; exact hne rfl
          · exact ih L hw ht

theorem simplifyClause_single (v : Int) (b : Bool) (c : Clause) :
    simplifyClause [(v, b)] c = simplifyLitsWith v b c := by
  induction c with
  | nil => rfl
  | cons lit rest ih =>
    by_cases hv : v = lit.var
    · have hv2 : lit.var = v := hv.symm
      simp only [simplifyClause, simplifyLitsWith, lookupA_cons, lookupA_nil,
        if_pos hv, if_pos hv2, ih]
    · have hv2 : ¬ lit.var = v := fun hc => hv hc.symm
      simp only [simplifyClause, simplifyLitsWith, lookupA_cons, lookupA_nil,
        if_neg hv, if_neg hv2, ih]

/-- A preprocessor input on which unit propagation creates an empty clause
next to other clauses that no further rule removes. -/
def exC6 : PreState :=
  ⟨[⟨Quantifier.EXISTS, [1, 2, 3]⟩],
   [[⟨1, false⟩], [⟨1, true⟩],
    [⟨2, false⟩, ⟨3, false⟩], [⟨2, true⟩, ⟨3, false⟩],
    [⟨2, false⟩, ⟨3, true⟩], [⟨2, true⟩, ⟨3, true⟩]], []⟩

/-- Claim C6, counterexample: after this `preprocess` call the clause set
contains the empty clause and four further clauses, so the empty clause is
not the only element of the final clause set. -/
theorem claim6_counterexample :
    [] ∈ (preprocess exC6).1.clauses ∧ (preprocess exC6).1.clauses ≠ [[]] := by
  decide

/-- Claim C6, amended: the collapse invariant holds after every run of the
preprocessor clause simplification (not after every `preprocess` call): if
the resulting clause set contains the empty clause, the empty clause is
its only element. -/
theorem claim6_simplify_collapse (asg : Assignments) (cs : List Clause)
    (h : [] ∈ simplifyClauses asg cs) : simplifyClauses asg cs = [[]] := by
  cases hw : simplifyWalk asg cs with
  | none => simp [simplifyClauses, hw]
  | some l =>
    simp only [simplifyClauses, hw, Option.getD_some] at h ⊢
    exact absurd h (simplifyWalk_no_empty asg cs l hw)

theorem claim6_witness :
    [] ∈ simplifyClauses [(1, true)] [[⟨1, true⟩], [⟨2, false⟩]] ∧
    simplifyClauses [(1, true)] [[⟨1, true⟩], [⟨2, false⟩]] = [[]] :=
  ⟨by decide, claim6_simplify_collapse _ _ (by decide)⟩

/-- Claim C7, counterexample: on a clause set where the assignment
produces an empty clause, the single-assignment simplification of the
search engine and the preprocessor clause simplification disagree: the
former keeps the empty clause next to the remaining clause, the latter
collapses the set to the empty clause alone. -/
theorem claim7_counterexample :
    simplifyWithAssignment [[⟨1, true⟩], [⟨2, false⟩]] 1 true ≠
      simplifyClauses [(1, true)] [[⟨1, true⟩], [⟨2, false⟩]] := by
  decide

/-- Claim C7, amended: on every clause set on which no clause shrinks to
empty, the single-assignment simplification for `v := b` produces exactly
the clause set of the preprocessor clause simplification run with `v := b`
as the only assignment. -/
theorem claim7_simplify_agree (cs : List Clause) (v : Int) (b : Bool)
    (h : [] ∉ simplifyWithAssignment cs v b) :
    simplifyWithAssignment cs v b = simplifyClauses [(v, b)] cs := by
  induction cs with
  | nil => rfl
  | cons c rest ih =>
    cases hc : simplifyLitsWith v b c with
    | none =>
      have hcc : simplifyClause [(v, b)] c = none := by
        rw [simplifyClause_single, hc]
      have hsplit : simplifyWithAssignment (c :: rest) v b =
          simplifyWithAssignment rest v b := by
        simp [simplifyWithAssignment, List.filterMap_cons, hc]
      rw [hsplit] at h ⊢
      rw [ih h]
      simp [simplifyClauses, simplifyWalk, hcc]
    | some c' =>
      have hcc : simplifyClause [(v, b)] c = some c' := by
        rw [simplifyClause_single, hc]
      have hsplit : simplifyWithAssignment (c :: rest) v b =
          c' :: simplifyWithAssignment rest v b := by
        simp [simplifyWithAssignment, List.filterMap_cons, hc]
      rw [hsplit] at h ⊢
      have hne : c' ≠ [] := fun hh => h (by rw [hh]; exact List.mem_cons_self _ _)
      have hnr : [] ∉ simplifyWithAssignment rest v b :=
        fun hm => h (List.mem_cons_of_mem _ hm)
      have ihr := ih hnr
      cases hw : simplifyWalk [(v, b)] rest with
      | none =>
        exfalso
        apply hnr
        rw [ihr]
        simp [simplifyClauses, hw]
      | some L =>
        have hL : simplifyWithAssignment rest v b = L := by
          rw [ihr]; simp [simplifyClauses, hw]
        have hie : c'.isEmpty = false := by
          cases c' with
          | nil => exact absurd rfl hne
          | cons a t => rfl
        simp [simplifyClauses, simplifyWalk, hcc, hw, hie, hL]

theorem claim7_witness :
    [] ∉ simplifyWithAssignment [[⟨1, false⟩, ⟨2, false⟩]] 1 true ∧
    simplifyWithAssignment [[⟨1, false⟩, ⟨2, false⟩]] 1 true =
      simplifyClauses [(1, true)] [[⟨1, false⟩, ⟨2, false⟩]] :=
  ⟨by decide, claim7_simplify_agree _ _ _ (by decide)⟩
/-! ### Claim C2: admissibility of unit propagation -/

/-- The admissibility test in the words of the specification: over `R(v)`,
the set of clauses currently containing any literal on `v`, an existential
`v` is admissible iff no clause of `R(v)` contains a literal on an
unassigned universal variable in a strictly earlier block than `v`, and a
universal `v` is admissible iff no clause of `R(v)` contains a literal on
an unassigned existential variable in a strictly later block than `v`. -/
def specAdmissible (st : PreState) (v : Int) : Bool :=
  match varToQuantifier st.quantifierBlocks v with
  | Quantifier.EXISTS =>
    !((getRelevantClauses st.clauses v).any fun c => c.any fun m =>
      (lookupA st.assignments m.var).isNone &&
      decide (varToQuantifier st.quantifierBlocks m.var = Quantifier.FORALL) &&
      decide (varToBlockIndex st.quantifierBlocks m.var <
              varToBlockIndex st.quantifierBlocks v))
  | Quantifier.FORALL =>
    !((getRelevantClauses st.clauses v).any fun c => c.any fun m =>
      (lookupA st.assignments m.var).isNone &&
      decide (varToQuantifier st.quantifierBlocks m.var = Quantifier.EXISTS) &&
      decide (varToBlockIndex st.quantifierBlocks v <
              varToBlockIndex st.quantifierBlocks m.var))

theorem perLit_exists (blocks : List QuantifierBlock) (asg : Assignments)
    (v : Int) (m : Literal) :
    ((if m.var = v then true
      else !(decide (varToBlockIndex blocks m.var < varToBlockIndex blocks v) &&
             decide (varToQuantifier blocks m.var = Quantifier.FORALL) &&
             (lookupA asg m.var).isNone)) = true) ↔
    (((lookupA asg m.var).isNone &&
      decide (varToQuantifier blocks m.var = Quantifier.FORALL) &&
      decide (varToBlockIndex blocks m.var < varToBlockIndex blocks v)) = false) := by
  by_cases hm : m.var = v
  · have hd : decide (varToBlockIndex blocks m.var < varToBlockIndex blocks v) = false := by
      rw [hm]; exact decide_eq_false (Nat.lt_irrefl _)
    rw [if_pos hm, hd]
    simp
  · rw [if_neg hm]
    cases h1 : (lookupA asg m.var).isNone <;>
    cases h2 : decide (varToQuantifier blocks m.var = Quantifier.FORALL) <;>
    cases h3 : decide (varToBlockIndex blocks m.var < varToBlockIndex blocks v) <;>
    simp [h1, h2, h3]

theorem perLit_forall (blocks : List QuantifierBlock) (asg : Assignments)
    (v : Int) (m : Literal) :
    ((if m.var = v then true
      else !(decide (varToBlockIndex blocks v < varToBlockIndex blocks m.var) &&
             decide (varToQuantifier blocks m.var = Quantifier.EXISTS) &&
             (lookupA asg m.var).isNone)) = true) ↔
    (((lookupA asg m.var).isNone &&
      decide (varToQuantifier blocks m.var = Quantifier.EXISTS) &&
      decide (varToBlockIndex blocks v < varToBlockIndex blocks m.var)) = false) := by
  by_cases hm : m.var = v
  · have hd : decide (varToBlockIndex blocks v < varToBlockIndex blocks m.var) = false := by
      rw [hm]; exact decide_eq_false (Nat.lt_irrefl _)
    rw [if_pos hm, hd]
    simp
  · rw [if_neg hm]
    cases h1 : (lookupA asg m.var).isNone <;>
    cases h2 : decide (varToQuantifier blocks m.var = Quantifier.EXISTS) <;>
    cases h3 : decide (varToBlockIndex blocks v < varToBlockIndex blocks m.var) <;>
    simp [h1, h2, h3]

theorem all_iff_not_any_clause (c : Clause) (f g : Literal → Bool)
    (hfg : ∀ m, f m = true ↔ g m = false) : c.all f = !(c.any g) := by
  induction c with
  | nil => rfl
  | cons m rest ih =>
    simp only [List.all_cons, List.any_cons, Bool.not_or, ih]
    have hm : f m = !(g m) := by
      rcases Bool.eq_false_or_eq_true (g m) with hg | hg
      · rw [hg]
        rcases Bool.eq_false_or_eq_true (f m) with hf | hf
        · rw [(hfg m).mp hf] at hg; cases hg
        · rw [hf]; rfl
      · rw [hg, (hfg m).mpr hg]; rfl
    rw [hm]

theorem all_iff_not_any_cnf (R : List Clause) (f g : Literal → Bool)
    (hfg : ∀ m, f m = true ↔ g m = false) :
    (R.all fun c => c.all f) = !(R.any fun c => c.any g) := by
  induction R with
  | nil => rfl
  | cons c rest ih =>
    simp only [List.all_cons, List.any_cons, Bool.not_or, ih,
      all_iff_not_any_clause c f g hfg]

/-- The code admissibility test over the relevant clauses agrees with the
test as the specification words it. -/
theorem canPropagate_eq_specAdmissible (st : PreState) (v : Int) :
    canPropagateVariable st.quantifierBlocks st.assignments v
      (getRelevantClauses st.clauses v) = specAdmissible st v := by
  unfold canPropagateVariable specAdmissible
  cases hq : varToQuantifier st.quantifierBlocks v with
  | EXISTS =>
    exact all_iff_not_any_cnf (getRelevantClauses st.clauses v) _ _
      (perLit_exists st.quantifierBlocks st.assignments v)
  | FORALL =>
    exact all_iff_not_any_cnf (getRelevantClauses st.clauses v) _ _
      (perLit_forall st.quantifierBlocks st.assignments v)

theorem mem_insertDescBy (x y : Literal × Nat) (l : List (Literal × Nat)) :
    y ∈ insertDescBy x l ↔ y = x ∨ y ∈ l := by
  induction l with
  | nil => simp [insertDescBy]
  | cons z zs ih =>
    simp only [insertDescBy]
    split
    · simp [List.mem_cons]
    · simp only [List.mem_cons, ih]
      tauto

theorem mem_sortUnitsDesc (y : Literal × Nat) (l : List (Literal × Nat)) :
    y ∈ sortUnitsDesc l ↔ y ∈ l := by
  induction l with
  | nil => simp [sortUnitsDesc]
  | cons z zs ih =>
    simp only [sortUnitsDesc, mem_insertDescBy, ih, List.mem_cons]

theorem collectUnits_unit (st : PreState) (l : Literal) (i : Nat)
    (h : (l, i) ∈ collectUnits st) : [l] ∈ st.clauses := by
  rcases List.mem_filterMap.mp h with ⟨c, hc, hmatch⟩
  cases c with
  | nil => cases hmatch
  | cons a t =>
    cases t with
    | nil =>
      cases hmatch
      exact hc
    | cons b u => cases hmatch

theorem collectUnits_intro (st : PreState) (l : Literal)
    (h : [l] ∈ st.clauses) :
    (l, varToBlockIndex st.quantifierBlocks l.var) ∈ collectUnits st :=
  List.mem_filterMap.mpr ⟨[l], h, rfl⟩

theorem propagateOnce_some_char (st : PreState) (l : Literal) (st' : PreState)
    (h : propagateOnce st = some (l, st')) :
    [l] ∈ st.clauses ∧ lookupA st.assignments l.var = none ∧
    canPropagateVariable st.quantifierBlocks st.assignments l.var
      (getRelevantClauses st.clauses l.var) = true ∧ st' = applyUnit st l := by
  unfold propagateOnce at h
  cases hf : List.find? (fun p =>
      (lookupA st.assignments p.1.var).isNone &&
      canPropagateVariable st.quantifierBlocks st.assignments p.1.var
        (getRelevantClauses st.clauses p.1.var))
      (sortUnitsDesc (collectUnits st)) with
  | none => rw [hf] at h; cases h
  | some p =>
    rw [hf] at h
    cases h
    have hguard := List.find?_some hf
    have hmem := List.mem_of_find?_eq_some hf
    rw [Bool.and_eq_true] at hguard
    have hlook : lookupA st.assignments p.1.var = none :=
      Option.isNone_iff_eq_none.mp hguard.1
    have hunit : [p.1] ∈ st.clauses :=
      collectUnits_unit st p.1 p.2 ((mem_sortUnitsDesc _ _).mp hmem)
    exact ⟨hunit, hlook, hguard.2, rfl⟩

theorem propagateOnce_none_char (st : PreState) (h : propagateOnce st = none)
    (l : Literal) (hunit : [l] ∈ st.clauses)
    (hlook : lookupA st.assignments l.var = none) :
    canPropagateVariable st.quantifierBlocks st.assignments l.var
      (getRelevantClauses st.clauses l.var) = false := by
  unfold propagateOnce at h
  cases hf : List.find? (fun p =>
      (lookupA st.assignments p.1.var).isNone &&
      canPropagateVariable st.quantifierBlocks st.assignments p.1.var
        (getRelevantClauses st.clauses p.1.var))
      (sortUnitsDesc (collectUnits st)) with
  | some p => rw [hf] at h; cases h
  | none =>
    have hall := List.find?_eq_none.mp hf
    have hmem : (l, varToBlockIndex st.quantifierBlocks l.var) ∈
        sortUnitsDesc (collectUnits st) :=
      (mem_sortUnitsDesc _ _).mpr (collectUnits_intro st l hunit)
    have hguard := hall _ hmem
    rw [Bool.and_eq_true] at hguard
    rcases Bool.eq_false_or_eq_true (canPropagateVariable st.quantifierBlocks
      st.assignments l.var (getRelevantClauses st.clauses l.var)) with hc | hc
    · exact absurd ⟨Option.isNone_iff_eq_none.mpr hlook, hc⟩ hguard
    · exact hc

/-- Claim C2: during unit propagation, a unit on variable `v` is
propagated (assigning `v`, deleting satisfied clauses, dropping the
opposite occurrences) only when the specification admissibility test over
the relevant clauses holds; when no unassigned unit passes the test, the
pass propagates nothing and the matrix is left intact. -/
theorem claim2_unit_admissibility (st : PreState) :
    (∀ l st', propagateOnce st = some (l, st') →
      [l] ∈ st.clauses ∧ lookupA st.assignments l.var = none ∧
      specAdmissible st l.var = true ∧ st' = applyUnit st l) ∧
    (propagateOnce st = none →
      ∀ l, [l] ∈ st.clauses → lookupA st.assignments l.var = none →
        specAdmissible st l.var = false) ∧
    (propagateOnce st = none → unitPropagate st = (st, false)) := by
  refine ⟨?_, ?_, ?_⟩
  · intro l st' h
    obtain ⟨hunit, hlook, hcan, hst⟩ := propagateOnce_some_char st l st' h
    rw [canPropagate_eq_specAdmissible] at hcan
    exact ⟨hunit, hlook, hcan, hst⟩
  · intro h l hunit hlook
    rw [← canPropagate_eq_specAdmissible]
    exact propagateOnce_none_char st h l hunit hlook
  · intro h
    unfold unitPropagate upFuel unitPropagateAux
    rw [h]

/-- A state whose only unit clause is inadmissible: the unit on the
existential variable 2 co-occurs with the unassigned universal variable 1
of the strictly earlier block. -/
def exC2 : PreState :=
  ⟨[⟨Quantifier.FORALL, [1]⟩, ⟨Quantifier.EXISTS, [2]⟩],
   [[⟨2, false⟩], [⟨1, false⟩, ⟨2, false⟩]], []⟩

theorem claim2_witness :
    propagateOnce exC2 = none ∧ specAdmissible exC2 2 = false :=
  ⟨by decide,
   (claim2_unit_admissibility exC2).2.1 (by decide) ⟨2, false⟩ (by decide)
     (by decide)⟩
/-! ### Claim C8: termination of unit propagation -/

theorem applyUnit_matrixVars_subset (st : PreState) (u : Literal) (w : Int)
    (hw : w ∈ matrixVars (applyUnit st u).clauses) : w ∈ matrixVars st.clauses := by
  simp only [applyUnit, matrixVars, List.mem_flatMap] at hw ⊢
  rcases hw with ⟨c, hc, hwc⟩
  rcases List.mem_map.mp hc with ⟨c0, hc0, rfl⟩
  rcases List.mem_map.mp hwc with ⟨lit, hlit, rfl⟩
  exact ⟨c0, List.mem_of_mem_filter hc0,
    List.mem_map.mpr ⟨lit, List.mem_of_mem_filter hlit, rfl⟩⟩

theorem applyUnit_var_gone (st : PreState) (u : Literal) :
    u.var ∉ matrixVars (applyUnit st u).clauses := by
  intro hmem
  simp only [applyUnit, matrixVars, List.mem_flatMap] at hmem
  rcases hmem with ⟨c, hc, hvc⟩
  rcases List.mem_map.mp hc with ⟨c0, hc0, rfl⟩
  rcases List.mem_map.mp hvc with ⟨lit, hlit, hveq⟩
  have hkeep := List.of_mem_filter hlit
  have hin := List.mem_of_mem_filter hlit
  have hpred := List.of_mem_filter hc0
  rw [Bool.not_eq_true', List.any_eq_false] at hpred
  have hplit := hpred lit hin
  rw [Bool.not_eq_true', hveq] at hkeep
  apply hplit
  rw [Bool.and_eq_true]
  constructor
  · rw [hveq]; exact decide_eq_true rfl
  · cases hx : lit.isNegated <;> cases hy : u.isNegated <;>
      rw [hx, hy] at hkeep <;> simp_all

theorem unassignedMatrixVars_decrease (st : PreState) (u : Literal)
    (hunit : [u] ∈ st.clauses) (hlook : lookupA st.assignments u.var = none) :
    (unassignedMatrixVars (applyUnit st u)).card <
      (unassignedMatrixVars st).card := by
  apply Finset.card_lt_card
  rw [Finset.ssubset_def]
  constructor
  · intro w hw
    simp only [unassignedMatrixVars, List.mem_toFinset, List.mem_filter] at hw ⊢
    rcases hw with ⟨hwm, hwa⟩
    refine ⟨applyUnit_matrixVars_subset st u w hwm, ?_⟩
    by_cases hwu : u.var = w
    · exfalso
      simp only [applyUnit, lookupA_cons, if_pos hwu] at hwa
      cases hwa
    · simp only [applyUnit, lookupA_cons, if_neg hwu] at hwa
      exact hwa
  · intro hsup
    have hu : u.var ∈ unassignedMatrixVars st := by
      simp only [unassignedMatrixVars, List.mem_toFinset, List.mem_filter]
      refine ⟨List.mem_flatMap.mpr ⟨[u], hunit, by simp⟩, ?_⟩
      rw [hlook]
      rfl
    have hmem := hsup hu
    simp only [unassignedMatrixVars, List.mem_toFinset, List.mem_filter] at hmem
    exact applyUnit_var_gone st u hmem.1

theorem unitPropagateAux_done (n : Nat) :
    ∀ st : PreState, (unassignedMatrixVars st).card < n →
      propagateOnce (unitPropagateAux n st).1 = none := by
  induction n with
  | zero => intro st h; exact absurd h (Nat.not_lt_zero _)
  | succ n ih =>
    intro st h
    unfold unitPropagateAux
    cases hp : propagateOnce st with
    | none => exact hp
    | some p =>
      simp only []
      apply ih
      obtain ⟨hunit, hlook, _, hst⟩ :=
        propagateOnce_some_char st p.1 p.2 (by rw [hp])
      have hlt : (unassignedMatrixVars p.2).card <
          (unassignedMatrixVars st).card := by
        rw [hst]
        exact unassignedMatrixVars_decrease st p.1 hunit hlook
      omega

/-- Claim C8: each propagation-loop iteration that performs work strictly
decreases the number of unassigned variables appearing in the matrix, and
the inner propagation loop runs until no admissible unit remains. -/
theorem claim8_unit_propagation_terminates :
    (∀ st l st', propagateOnce st = some (l, st') →
      (unassignedMatrixVars st').card < (unassignedMatrixVars st).card) ∧
    (∀ st, propagateOnce (unitPropagate st).1 = none) := by
  constructor
  · intro st l st' h
    obtain ⟨hunit, hlook, _, hst⟩ := propagateOnce_some_char st l st' h
    rw [hst]
    exact unassignedMatrixVars_decrease st l hunit hlook
  · intro st
    exact unitPropagateAux_done (upFuel st) st (Nat.lt_succ_self _)

/-- A one-unit state used as witness input. -/
def exC8 : PreState := ⟨[⟨Quantifier.EXISTS, [1]⟩], [[⟨1, false⟩]], []⟩

theorem claim8_witness :
    (unassignedMatrixVars (applyUnit exC8 ⟨1, false⟩)).card <
      (unassignedMatrixVars exC8).card :=
  claim8_unit_propagation_terminates.1 exC8 ⟨1, false⟩
    (applyUnit exC8 ⟨1, false⟩) (by decide)
/-! ### Search engine: variable selection and assignment monotonicity -/

theorem findNext_ne (blocks : List QuantifierBlock) (asg : Assignments)
    (h : findNextUnassignedVar blocks asg ≠ -1) :
    findNextUnassignedVar blocks asg ∈ blockVarsList blocks ∧
    lookupA asg (findNextUnassignedVar blocks asg) = none := by
  unfold findNextUnassignedVar at h ⊢
  cases hf : (blockVarsList blocks).find? (fun v => (lookupA asg v).isNone) with
  | none =>
    rw [hf] at h
    exact absurd rfl h
  | some v0 =>
    have hm : v0 ∈ blockVarsList blocks := List.mem_of_find?_eq_some hf
    have hp := List.find?_some hf
    exact ⟨hm, Option.isNone_iff_eq_none.mp hp⟩

theorem lookupA_branch_isSome (s : SState) (v : Int) (b : Bool) (w : Int)
    (h : (lookupA s.assignments w).isSome = true) :
    (lookupA (branchState s v b).assignments w).isSome = true := by
  simp only [branchState, lookupA_cons]
  split
  · rfl
  · exact h

theorem lookupA_erase_isSome (v w : Int) (asg : Assignments) (hvw : v ≠ w)
    (h : (lookupA asg w).isSome = true) :
    (lookupA (eraseKey v asg) w).isSome = true := by
  rw [lookupA_eraseKey_ne v w asg hvw]
  exact h

/-- Along the search, assigned variables stay assigned in the returned
working state (the decision variable of a frame is re-assigned before any
return except through its own erasure, which never touches other keys). -/
theorem solveRec_assign_mono (blocks : List QuantifierBlock) :
    ∀ n : Nat, ∀ s : SState, ∀ w : Int,
      (lookupA s.assignments w).isSome = true →
      (lookupA (solveRec blocks n s).2.assignments w).isSome = true := by
  intro n
  induction n with
  | zero => intro s w h; exact h
  | succ n ih =>
    intro s w h
    simp only [solveRec]
    split
    · exact h
    · split
      · exact h
      · split
        · exact h
        · rename_i hne
          obtain ⟨hvmem, hvnone⟩ := findNext_ne blocks s.assignments hne
          generalize hx : findNextUnassignedVar blocks s.assignments = x
          rw [hx] at hvmem hvnone
          have hvw : x ≠ w := by
            intro hc
            rw [hc] at hvnone
            rw [hvnone] at h
            simp at h
          have h1 := ih (branchState s x true) w
            (lookupA_branch_isSome s x true w h)
          split
          · split
            · exact h1
            · have h2 := ih (branchState (restoreUnassign s.clauses x
                  (solveRec blocks n (branchState s x true)).2) x false) w
                (lookupA_branch_isSome _ x false w
                  (lookupA_erase_isSome x w _ hvw h1))
              split
              · exact h2
              · exact lookupA_erase_isSome x w _ hvw h2
          · split
            · exact lookupA_erase_isSome x w _ hvw h1
            · have h2 := ih (branchState (restoreUnassign s.clauses x
                  (solveRec blocks n (branchState s x true)).2) x false) w
                (lookupA_branch_isSome _ x false w
                  (lookupA_erase_isSome x w _ hvw h1))
              split
              · exact lookupA_erase_isSome x w _ hvw h2
              · exact h2

/-! ### Search engine: the measure strictly decreases on branch states -/

theorem countP_le_of (l : List Int) (p q : Int → Bool)
    (himp : ∀ x ∈ l, q x = true → p x = true) :
    l.countP q ≤ l.countP p := by
  induction l with
  | nil => exact Nat.le_refl _
  | cons a t ih =>
    rw [List.countP_cons, List.countP_cons]
    have ht := ih fun x hx => himp x (List.mem_cons_of_mem a hx)
    rcases Bool.eq_false_or_eq_true (q a) with hq | hq
    · rw [himp a (List.mem_cons_self a t) hq, hq]
      exact Nat.add_le_add ht (Nat.le_refl _)
    · rw [hq, if_neg Bool.false_ne_true, Nat.add_zero]
      exact Nat.le_trans ht (Nat.le_add_right _ _)

theorem countP_lt_of (l : List Int) (p q : Int → Bool)
    (himp : ∀ x ∈ l, q x = true → p x = true)
    (x0 : Int) (hx0 : x0 ∈ l) (hp : p x0 = true) (hq : q x0 = false) :
    l.countP q < l.countP p := by
  induction l with
  | nil => cases hx0
  | cons a t ih =>
    rw [List.countP_cons, List.countP_cons]
    rcases List.mem_cons.mp hx0 with rfl | hx0t
    · rw [hp, hq, if_neg Bool.false_ne_true, if_pos rfl, Nat.add_zero]
      have := countP_le_of t p q fun x hx => himp x (List.mem_cons_of_mem _ hx)
      omega
    · have ht := ih (fun x hx => himp x (List.mem_cons_of_mem a hx)) hx0t
      rcases Bool.eq_false_or_eq_true (q a) with hqa | hqa
      · rw [himp a (List.mem_cons_self a t) hqa, hqa]
        exact Nat.add_lt_add_right ht _
      · rw [hqa, if_neg Bool.false_ne_true, Nat.add_zero]
        exact Nat.lt_of_lt_of_le ht (Nat.le_add_right _ _)

theorem unassignedCount_branch_lt (blocks : List QuantifierBlock) (s : SState)
    (v : Int) (b : Bool) (hvmem : v ∈ blockVarsList blocks)
    (hvnone : lookupA s.assignments v = none) :
    unassignedCount blocks (branchState s v b).assignments <
      unassignedCount blocks s.assignments := by
  apply countP_lt_of _ _ _ ?_ v hvmem ?_ ?_
  · intro x hx hq
    simp only [branchState, lookupA_cons] at hq
    split at hq
    · cases hq
    · exact hq
  · rw [hvnone]; rfl
  · simp [branchState, lookupA_cons]

theorem unassignedCount_second_lt (blocks : List QuantifierBlock) (s : SState)
    (v : Int) (asg1 : Assignments) (b : Bool)
    (hvmem : v ∈ blockVarsList blocks)
    (hvnone : lookupA s.assignments v = none)
    (hmono : ∀ w : Int, (lookupA ((v, true) :: s.assignments) w).isSome = true →
      (lookupA asg1 w).isSome = true) :
    (blockVarsList blocks).countP
        (fun x => (lookupA ((v, b) :: eraseKey v asg1) x).isNone) <
      unassignedCount blocks s.assignments := by
  apply countP_lt_of _ _ _ ?_ v hvmem ?_ ?_
  · intro x hx hq
    simp only [lookupA_cons] at hq
    split at hq
    · cases hq
    · rename_i hvx
      rw [lookupA_eraseKey_ne v x asg1 hvx] at hq
      cases hla : lookupA s.assignments x with
      | none => rfl
      | some bb =>
        exfalso
        have hs : (lookupA ((v, true) :: s.assignments) x).isSome = true := by
          rw [lookupA_cons, if_neg hvx, hla]
          rfl
        have := hmono x hs
        rw [Option.isNone_iff_eq_none.mp hq] at this
        cases this
  · rw [hvnone]; rfl
  · simp [lookupA_cons]

/-! ### Search engine: the result is independent of sufficient fuel -/

theorem solveRec_fuel_irrel (blocks : List QuantifierBlock) :
    ∀ u : Nat, ∀ s : SState, ∀ n m : Nat,
      unassignedCount blocks s.assignments = u → u < n → u < m →
      solveRec blocks n s = solveRec blocks m s := by
  intro u
  induction u using Nat.strong_induction_on with
  | _ u ih =>
    intro s n m hu hn hm
    obtain ⟨n', rfl⟩ : ∃ n', n = n' + 1 := ⟨n - 1, by omega⟩
    obtain ⟨m', rfl⟩ : ∃ m', m = m' + 1 := ⟨m - 1, by omega⟩
    simp only [solveRec]
    split
    · rfl
    · split
      · rfl
      · split
        · rfl
        · rename_i hne
          obtain ⟨hvmem, hvnone⟩ := findNext_ne blocks s.assignments hne
          generalize hx : findNextUnassignedVar blocks s.assignments = x
          rw [hx] at hvmem hvnone
          have h1lt : unassignedCount blocks
              (branchState s x true).assignments < u :=
            hu ▸ unassignedCount_branch_lt blocks s x true hvmem hvnone
          have e1 : solveRec blocks n' (branchState s x true) =
              solveRec blocks m' (branchState s x true) :=
            ih _ h1lt _ _ _ rfl (by omega) (by omega)
          rw [e1]
          have h2lt : unassignedCount blocks
              (branchState (restoreUnassign s.clauses x
                (solveRec blocks m' (branchState s x true)).2) x
                false).assignments < u := by
            have := unassignedCount_second_lt blocks s x
              (solveRec blocks m' (branchState s x true)).2.assignments false
              hvmem hvnone
              (fun w hw => solveRec_assign_mono blocks m'
                (branchState s x true) w hw)
            exact hu ▸ this
          have e2 : solveRec blocks n' (branchState (restoreUnassign
              s.clauses x (solveRec blocks m' (branchState s x true)).2) x
              false) =
              solveRec blocks m' (branchState (restoreUnassign s.clauses x
                (solveRec blocks m' (branchState s x true)).2) x false) :=
            ih _ h2lt _ _ _ rfl (by omega) (by omega)
          rw [e2]

/-- The bounded-fuel search equals the search at any sufficient fuel. -/
theorem solveR_eq_solveRec (blocks : List QuantifierBlock) (s : SState)
    (n : Nat) (h : unassignedCount blocks s.assignments < n) :
    solveR blocks s = solveRec blocks n s :=
  solveRec_fuel_irrel blocks (unassignedCount blocks s.assignments) s _ n rfl
    (Nat.lt_succ_self _) h
/-- One branching step of the search at sufficient fuel: when no trivial
verdict applies and an unassigned variable exists, the result is the
branching body with both recursive calls again at sufficient fuel. -/
theorem solveR_step (blocks : List QuantifierBlock) (s : SState) (v : Int)
    (h1 : hasEmptyClause s.clauses = false) (h2 : s.clauses ≠ [])
    (hfv : findNextUnassignedVar blocks s.assignments = v) (hvne : v ≠ -1) :
    solveR blocks s =
      if varToQuantifier blocks v = Quantifier.EXISTS then
        if (solveR blocks (branchState s v true)).1 = Result.SAT then
          (Result.SAT, (solveR blocks (branchState s v true)).2)
        else if (solveR blocks (branchState (restoreUnassign s.clauses v
            (solveR blocks (branchState s v true)).2) v false)).1 =
            Result.SAT then
          (Result.SAT, (solveR blocks (branchState (restoreUnassign s.clauses
            v (solveR blocks (branchState s v true)).2) v false)).2)
        else
          (Result.UNSAT, restoreUnassign s.clauses v (solveR blocks
            (branchState (restoreUnassign s.clauses v (solveR blocks
              (branchState s v true)).2) v false)).2)
      else
        if (solveR blocks (branchState s v true)).1 = Result.UNSAT then
          (Result.UNSAT, restoreUnassign s.clauses v
            (solveR blocks (branchState s v true)).2)
        else if (solveR blocks (branchState (restoreUnassign s.clauses v
            (solveR blocks (branchState s v true)).2) v false)).1 =
            Result.UNSAT then
          (Result.UNSAT, restoreUnassign s.clauses v (solveR blocks
            (branchState (restoreUnassign s.clauses v (solveR blocks
              (branchState s v true)).2) v false)).2)
        else
          (Result.SAT, (solveR blocks (branchState (restoreUnassign
            s.clauses v (solveR blocks (branchState s v true)).2) v
            false)).2) := by
  have hvm := findNext_ne blocks s.assignments (by rw [hfv]; exact hvne)
  rw [hfv] at hvm
  obtain ⟨hvmem, hvnone⟩ := hvm
  have hne1 : ¬ (hasEmptyClause s.clauses = true) := by
    rw [h1]; exact Bool.false_ne_true
  have hne2 : ¬ (s.clauses.isEmpty = true) := by
    cases hcl : s.clauses with
    | nil => exact absurd hcl h2
    | cons a t => simp
  have hne3 : ¬ (findNextUnassignedVar blocks s.assignments = -1) := by
    rw [hfv]; exact hvne
  have hu1 : unassignedCount blocks (branchState s v true).assignments <
      unassignedCount blocks s.assignments :=
    unassignedCount_branch_lt blocks s v true hvmem hvnone
  have e1 : solveRec blocks (unassignedCount blocks s.assignments)
      (branchState s v true) = solveR blocks (branchState s v true) :=
    (solveR_eq_solveRec blocks (branchState s v true) _ hu1).symm
  have hu2 : unassignedCount blocks (branchState (restoreUnassign s.clauses v
      (solveR blocks (branchState s v true)).2) v false).assignments <
      unassignedCount blocks s.assignments := by
    have := unassignedCount_second_lt blocks s v
      (solveR blocks (branchState s v true)).2.assignments false hvmem hvnone
      (fun w hw => solveRec_assign_mono blocks
        (unassignedCount blocks (branchState s v true).assignments + 1)
        (branchState s v true) w hw)
    exact this
  have e2 : solveRec blocks (unassignedCount blocks s.assignments)
      (branchState (restoreUnassign s.clauses v
        (solveR blocks (branchState s v true)).2) v false) =
      solveR blocks (branchState (restoreUnassign s.clauses v
        (solveR blocks (branchState s v true)).2) v false) :=
    (solveR_eq_solveRec blocks _ _ hu2).symm
  show solveRec blocks (unassignedCount blocks s.assignments + 1) s = _
  simp only [solveRec]
  rw [if_neg hne1, if_neg hne2, if_neg hne3, hfv, e1, e2]

/-- A state exercising the pollution of the second FORALL branch: with
prefix FORALL 1, EXISTS 2 and the matrix
(x1 or x2), (x1 or not x2), (not x1 or x2), the clean branch x1 := false
is unsatisfiable, but the engine reports SAT because the leftover
assignment of x2 from the x1 := true branch hides both remaining
clauses from variable selection. -/
def blocksC1 : List QuantifierBlock :=
  [⟨Quantifier.FORALL, [1]⟩, ⟨Quantifier.EXISTS, [2]⟩]

def sC1 : SState :=
  ⟨[[⟨1, false⟩, ⟨2, false⟩], [⟨1, false⟩, ⟨2, true⟩],
    [⟨1, true⟩, ⟨2, false⟩]], []⟩

/-- Claim C1, evaluation at the failing input: a universal head whose
false branch taken from the snapshot returns UNSAT while the engine
returns SAT, so SAT is not equivalent to both branches from the snapshot
returning SAT (the instance is semantically unsatisfiable).  SAT returns
never undo assignments, so the leftover assignment of variable 2 from the
true branch hides the remaining clauses of the false branch from variable
selection, and the all-assigned fallback answers SAT. -/
theorem claim1_failing_run :
    hasEmptyClause sC1.clauses = false ∧ sC1.clauses ≠ [] ∧
    findNextUnassignedVar blocksC1 sC1.assignments = 1 ∧
    varToQuantifier blocksC1 1 = Quantifier.FORALL ∧
    (solveR blocksC1 sC1).1 = Result.SAT ∧
    (solveR blocksC1 (branchState sC1 1 false)).1 = Result.UNSAT := by
  decide

/-- What the engine actually computes at a decision: the trivial verdicts
are checked first, and the branching equivalences hold with the second
branch taken from the state the first branch returned (decision variable
unassigned, clause set restored) rather than from the snapshot. -/
theorem solveR_branching_behavior (blocks : List QuantifierBlock) (s : SState) :
    (hasEmptyClause s.clauses = true → (solveR blocks s).1 = Result.UNSAT) ∧
    (s.clauses = [] → (solveR blocks s).1 = Result.SAT) ∧
    (∀ v : Int, hasEmptyClause s.clauses = false → s.clauses ≠ [] →
      findNextUnassignedVar blocks s.assignments = v → v ≠ -1 →
      ((varToQuantifier blocks v = Quantifier.EXISTS →
        ((solveR blocks s).1 = Result.SAT ↔
          ((solveR blocks (branchState s v true)).1 = Result.SAT ∨
           (solveR blocks (branchState (restoreUnassign s.clauses v
             (solveR blocks (branchState s v true)).2) v false)).1 =
             Result.SAT))) ∧
       (varToQuantifier blocks v = Quantifier.FORALL →
        ((solveR blocks s).1 = Result.SAT ↔
          ((solveR blocks (branchState s v true)).1 = Result.SAT ∧
           (solveR blocks (branchState (restoreUnassign s.clauses v
             (solveR blocks (branchState s v true)).2) v false)).1 =
             Result.SAT))))) := by
  refine ⟨?_, ?_, ?_⟩
  · intro h
    show (solveRec blocks (unassignedCount blocks s.assignments + 1) s).1 = _
    simp only [solveRec]
    rw [if_pos h]
  · intro h
    have h2 : s.clauses.isEmpty = true := by rw [h]; rfl
    have hne1 : ¬ (hasEmptyClause s.clauses = true) := by
      rw [h]; exact Bool.false_ne_true
    show (solveRec blocks (unassignedCount blocks s.assignments + 1) s).1 = _
    simp only [solveRec]
    rw [if_neg hne1, if_pos h2]
  · intro v h1 h2 hfv hvne
    rw [solveR_step blocks s v h1 h2 hfv hvne]
    constructor
    · intro hq
      rw [if_pos hq]
      cases hr1 : (solveR blocks (branchState s v true)).1 with
      | SAT => simp
      | UNSAT =>
        cases hr2 : (solveR blocks (branchState (restoreUnassign s.clauses v
            (solveR blocks (branchState s v true)).2) v false)).1 with
        | SAT => simp
        | UNSAT => simp
    · intro hq
      have hqne : ¬ (varToQuantifier blocks v = Quantifier.EXISTS) := by
        rw [hq]
        intro hc
        cases hc
      rw [if_neg hqne]
      cases hr1 : (solveR blocks (branchState s v true)).1 with
      | UNSAT => simp
      | SAT =>
        cases hr2 : (solveR blocks (branchState (restoreUnassign s.clauses v
            (solveR blocks (branchState s v true)).2) v false)).1 with
        | SAT => simp
        | UNSAT => simp

theorem solveR_branching_behavior_concrete :
    (solveR blocksC1 sC1).1 = Result.SAT ↔
      ((solveR blocksC1 (branchState sC1 1 true)).1 = Result.SAT ∧
       (solveR blocksC1 (branchState (restoreUnassign sC1.clauses 1
         (solveR blocksC1 (branchState sC1 1 true)).2) 1 false)).1 =
         Result.SAT) :=
  ((solveR_branching_behavior blocksC1 sC1).2.2 1 (by decide) (by decide)
    (by decide) (by decide)).2 (by decide)

/-! ### Claim C3: state restoration after the search returns -/

theorem solveRec_unsat_clauses (blocks : List QuantifierBlock) :
    ∀ n : Nat, ∀ s : SState,
      (solveRec blocks n s).1 = Result.UNSAT →
      (solveRec blocks n s).2.clauses = s.clauses := by
  intro n s
  cases n with
  | zero => intro _; rfl
  | succ n =>
    simp only [solveRec]
    split
    · intro _; rfl
    · split
      · intro h; cases h
      · split
        · intro _; rfl
        · split
          · split
            · intro h; cases h
            · split
              · intro h; cases h
              · intro _; rfl
          · split
            · intro _; rfl
            · split
              · intro _; rfl
              · intro h; cases h

def exC3sat : PreState := ⟨[⟨Quantifier.EXISTS, [1]⟩], [[⟨1, false⟩]], []⟩

/-- A state whose search returns UNSAT while an inner FORALL frame keeps
the leftover assignment of variable 2 from its successful true branch. -/
def exC3unsat : PreState :=
  ⟨[⟨Quantifier.FORALL, [1]⟩, ⟨Quantifier.EXISTS, [2]⟩],
   [[⟨1, false⟩], [⟨1, true⟩, ⟨2, false⟩]], []⟩

/-- Claim C3, counterexample: after a SAT run neither the working clause
set nor the working assignment equals the snapshot, and even after an
UNSAT run the working assignment differs from the snapshot. -/
theorem claim3_counterexample :
    ((solve exC3sat).1 = Result.SAT ∧
     (solve exC3sat).2.clauses ≠ exC3sat.clauses ∧
     (solve exC3sat).2.assignments ≠ exC3sat.assignments) ∧
    ((solve exC3unsat).1 = Result.UNSAT ∧
     (solve exC3unsat).2.clauses = exC3unsat.clauses ∧
     (solve exC3unsat).2.assignments ≠ exC3unsat.assignments) := by
  decide

/-- Claim C3, amended: the engine computes on its own working copy (the
snapshot argument is taken by value and never written back), and whenever
`solve` returns UNSAT its working clause set equals the snapshot clause
set.  Neither the working assignment nor, after a SAT return, the working
clause set is restored. -/
theorem claim3_unsat_clauses_restored (pre : PreState)
    (h : (solve pre).1 = Result.UNSAT) :
    (solve pre).2.clauses = pre.clauses := by
  unfold solve at h ⊢
  split at h
  · cases h
  · rename_i hie
    split at h
    · rename_i hec
      rw [if_neg hie, if_pos hec]
    · rename_i hec
      rw [if_neg hie, if_neg hec]
      exact solveRec_unsat_clauses pre.quantifierBlocks _ _ h

theorem claim3_witness :
    (solve exC3unsat).1 = Result.UNSAT ∧
    (solve exC3unsat).2.clauses = exC3unsat.clauses :=
  ⟨by decide, claim3_unsat_clauses_restored exC3unsat (by decide)⟩

/-! ### Claim C10: the all-variables-assigned fallback -/

/-- Claim C10: when every variable of every quantifier block is assigned,
the search returns UNSAT exactly when some working clause is empty and SAT
otherwise, even when non-empty unsatisfied clauses remain. -/
theorem claim10_all_assigned (blocks : List QuantifierBlock) (s : SState)
    (hall : ∀ v ∈ blockVarsList blocks,
      (lookupA s.assignments v).isSome = true) :
    (solveR blocks s).1 =
      (if hasEmptyClause s.clauses then Result.UNSAT else Result.SAT) := by
  have hf : findNextUnassignedVar blocks s.assignments = -1 := by
    unfold findNextUnassignedVar
    have hnone : (blockVarsList blocks).find?
        (fun v => (lookupA s.assignments v).isNone) = none := by
      rw [List.find?_eq_none]
      intro v hv hno
      have hs := hall v hv
      cases hlo : lookupA s.assignments v with
      | none => rw [hlo] at hs; cases hs
      | some b => rw [hlo] at hno; cases hno
    rw [hnone]
    rfl
  show (solveRec blocks (unassignedCount blocks s.assignments + 1) s).1 = _
  simp only [solveRec]
  rcases Bool.eq_false_or_eq_true (hasEmptyClause s.clauses) with he | he
  · rw [if_pos he, if_pos he]
  · have hne : ¬ (hasEmptyClause s.clauses = true) := by
      rw [he]; exact Bool.false_ne_true
    rw [if_neg hne, if_neg hne]
    rcases Bool.eq_false_or_eq_true (s.clauses.isEmpty) with hie | hie
    · rw [if_pos hie]
    · have hiene : ¬ (s.clauses.isEmpty = true) := by
        rw [hie]; exact Bool.false_ne_true
      rw [if_neg hiene, if_pos hf]

def blocksC10 : List QuantifierBlock := [⟨Quantifier.EXISTS, [1]⟩]

/-- A working state with every prefix variable assigned but a non-empty
unsatisfied clause (on a variable outside the prefix) remaining. -/
def sC10 : SState := ⟨[[⟨2, false⟩]], [(1, true)]⟩

theorem claim10_witness :
    (solveR blocksC10 sC10).1 = Result.SAT ∧ sC10.clauses ≠ [] := by
  constructor
  · have h := claim10_all_assigned blocksC10 sC10 (by decide)
    simpa using h
  · decide
/-! ### Claim C5: the pure-literal sweep -/

theorem pureDecision_some_iff (st : PreState) (v w : Int) (b : Bool) :
    pureDecision st v = some (w, b) ↔
      (w = v ∧ lookupA st.assignments v = none ∧
       canEliminateVariable st v = true ∧
       (isPureLiteral st.clauses ⟨v, false⟩ = true ∨
        isPureLiteral st.clauses ⟨v, true⟩ = true) ∧
       b = isPureLiteral st.clauses ⟨v, false⟩) := by
  unfold pureDecision
  cases hlo : lookupA st.assignments v with
  | some bb =>
    rw [if_pos (show (some bb).isSome = true from rfl)]
    constructor
    · intro h; cases h
    · intro h
      cases h.2.1
  | none =>
    rw [if_neg (show ¬ ((none : Option Bool).isSome = true) by simp)]
    cases hce : canEliminateVariable st v with
    | false =>
      rw [if_pos (show (!false) = true from rfl)]
      constructor
      · intro h; cases h
      · intro h
        cases h.2.2.1
    | true =>
      rw [if_neg (show ¬ ((!true) = true) by simp)]
      cases hor : (isPureLiteral st.clauses ⟨v, false⟩ ||
          isPureLiteral st.clauses ⟨v, true⟩) with
      | true =>
        rw [if_pos rfl]
        have hor2 : isPureLiteral st.clauses ⟨v, false⟩ = true ∨
            isPureLiteral st.clauses ⟨v, true⟩ = true := by
          rcases Bool.eq_false_or_eq_true
              (isPureLiteral st.clauses ⟨v, false⟩) with hp | hp
          · exact Or.inl hp
          · rw [hp] at hor
            simp at hor
            exact Or.inr hor
        constructor
        · intro h
          injection h with h'
          injection h' with h1 h2
          exact ⟨h1.symm, rfl, rfl, hor2, h2.symm⟩
        · intro h
          rw [h.1, h.2.2.2.2]
      | false =>
        rw [if_neg Bool.false_ne_true]
        constructor
        · intro h; cases h
        · intro h
          rcases h.2.2.2.1 with hp | hp
          · rw [hp] at hor; simp at hor
          · rw [hp] at hor; simp at hor

/-- Claim C5: the pure-literal sweep schedules exactly the unassigned
eligible variables (all strictly earlier blocks fully assigned) with a
pure polarity, choosing true iff the positive literal is pure, all
decisions made against the state at the start of the sweep; the scheduled
assignments are applied only after the sweep, followed by one run of
clause simplification. -/
theorem claim5_pure_literal_sweep (st : PreState) :
    (∀ (v : Int) (b : Bool),
      ((v, b) ∈ pureSchedule st ↔
        ((∃ blk ∈ st.quantifierBlocks, v ∈ blk.vars) ∧
         lookupA st.assignments v = none ∧
         allEarlierVariablesAssigned st.quantifierBlocks st.assignments
           (varToBlockIndex st.quantifierBlocks v) = true ∧
         (isPureLiteral st.clauses ⟨v, false⟩ = true ∨
          isPureLiteral st.clauses ⟨v, true⟩ = true) ∧
         b = isPureLiteral st.clauses ⟨v, false⟩))) ∧
    ((pureSchedule st).isEmpty = true → pureLiteralElimination st = (st, false)) ∧
    ((pureSchedule st).isEmpty = false →
      pureLiteralElimination st =
        (⟨st.quantifierBlocks,
          simplifyClauses ((pureSchedule st).foldl (fun a p => p :: a)
            st.assignments) st.clauses,
          (pureSchedule st).foldl (fun a p => p :: a) st.assignments⟩,
         true)) := by
  refine ⟨?_, ?_, ?_⟩
  · intro v b
    constructor
    · intro hmem
      rcases List.mem_flatMap.mp hmem with ⟨blk, hblk, hin⟩
      rcases List.mem_filterMap.mp hin with ⟨v0, hv0, hdec⟩
      obtain ⟨hw, hlo, hce, hor, hb⟩ := (pureDecision_some_iff st v0 v b).mp hdec
      subst hw
      exact ⟨⟨blk, List.mem_reverse.mp hblk, hv0⟩, hlo, hce, hor, hb⟩
    · intro h
      obtain ⟨⟨blk, hblk, hv⟩, hlo, hce, hor, hb⟩ := h
      apply List.mem_flatMap.mpr
      refine ⟨blk, List.mem_reverse.mpr hblk, ?_⟩
      apply List.mem_filterMap.mpr
      exact ⟨v, hv, (pureDecision_some_iff st v v b).mpr ⟨rfl, hlo, hce, hor, hb⟩⟩
  · intro hemp
    unfold pureLiteralElimination
    rw [if_pos hemp]
  · intro hemp
    unfold pureLiteralElimination
    rw [if_neg (by rw [hemp]; simp)]

theorem claim5_witness :
    pureLiteralElimination exC8 =
      (⟨exC8.quantifierBlocks,
        simplifyClauses ((pureSchedule exC8).foldl (fun a p => p :: a)
          exC8.assignments) exC8.clauses,
        (pureSchedule exC8).foldl (fun a p => p :: a) exC8.assignments⟩,
       true) :=
  (claim5_pure_literal_sweep exC8).2.2 (by decide)
/-! ### Claim C4: the verdict of preprocess -/

theorem pureLiteralElimination_false (st : PreState)
    (h : (pureLiteralElimination st).2 = false) :
    (pureLiteralElimination st).1 = st := by
  unfold pureLiteralElimination at h ⊢
  split at h
  · rename_i hemp
    rw [if_pos hemp]
  · cases h

theorem unitPropagate_false (st : PreState)
    (h : (unitPropagate st).2 = false) :
    (unitPropagate st).1 = st := by
  unfold unitPropagate upFuel at h ⊢
  rw [show (unassignedMatrixVars st).card + 1 =
    Nat.succ ((unassignedMatrixVars st).card) from rfl] at h ⊢
  unfold unitPropagateAux at h ⊢
  cases hp : propagateOnce st with
  | none => rfl
  | some p =>
    rw [hp] at h
    cases h

theorem preprocessLoop_char : ∀ (n : Nat) (st st' : PreState) (flag : Bool),
    preprocessLoop n st = (st', flag, true) →
    (flag = true ↔ [] ∈ st'.clauses) ∧
    (flag = false → unitPropagate st' = (st', false) ∧
      pureLiteralElimination st' = (st', false)) := by
  intro n
  induction n with
  | zero =>
    intro st st' flag h
    simp only [preprocessLoop, Prod.mk.injEq] at h
    exact absurd h.2.2 Bool.false_ne_true
  | succ n ih =>
    intro st st' flag h
    simp only [preprocessLoop] at h
    split at h
    · rename_i hemp
      simp only [Prod.mk.injEq] at h
      obtain ⟨hst, hflag, -⟩ := h
      subst hst
      constructor
      · rw [← hflag]
        constructor
        · intro _
          rcases List.any_eq_true.mp hemp with ⟨c, hc, hce⟩
          have : c = [] := by
            cases c with
            | nil => rfl
            | cons a t => cases hce
          rw [← this]
          exact hc
        · intro _; rfl
      · intro hf
        rw [← hflag] at hf
        cases hf
    · rename_i hemp
      split at h
      · exact ih _ _ _ h
      · rename_i hch
        simp only [Prod.mk.injEq] at h
        obtain ⟨hst, hflag, -⟩ := h
        have hu : (unitPropagate st).2 = false := by
          rcases Bool.eq_false_or_eq_true (unitPropagate st).2 with hu | hu
          · exact absurd (by rw [hu]; rfl) hch
          · exact hu
        have hp : (pureLiteralElimination (unitPropagate st).1).2 = false := by
          rcases Bool.eq_false_or_eq_true
              (pureLiteralElimination (unitPropagate st).1).2 with hp | hp
          · exact absurd (by rw [hp]; simp) hch
          · exact hp
        have hu1 : (unitPropagate st).1 = st := unitPropagate_false st hu
        have hp1 : (pureLiteralElimination (unitPropagate st).1).1 = st := by
          rw [hu1] at hp ⊢
          exact pureLiteralElimination_false st hp
        have hst' : st' = st := by rw [← hst, hp1]
        subst hst'
        constructor
        · rw [← hflag]
          constructor
          · intro hc; cases hc
          · intro hmem
            exfalso
            apply hemp
            exact List.any_eq_true.mpr ⟨[], hmem, rfl⟩
        · intro _
          constructor
          · have he2 : unitPropagate st' = ((unitPropagate st').1,
                (unitPropagate st').2) := rfl
            rw [he2, hu1, hu]
          · have he3 : pureLiteralElimination st' =
                ((pureLiteralElimination st').1,
                 (pureLiteralElimination st').2) := rfl
            rw [he3]
            rw [hu1] at hp hp1
            rw [hp1, hp]

/-- The three-valued verdict that claim C4 describes, determined by the
final state of the preprocessor. -/
inductive Verdict where
  | SAT : Verdict
  | UNSAT : Verdict
  | UNKNOWN : Verdict
deriving DecidableEq, Repr

def specVerdict (st : PreState) : Verdict :=
  if [] ∈ st.clauses then Verdict.UNSAT
  else if st.clauses.isEmpty then Verdict.SAT
  else Verdict.UNKNOWN

def exC4a : PreState := ⟨[⟨Quantifier.EXISTS, [1]⟩], [[⟨1, false⟩]], []⟩

def exC4b : PreState :=
  ⟨[⟨Quantifier.FORALL, [1]⟩, ⟨Quantifier.EXISTS, [2]⟩],
   [[⟨1, false⟩, ⟨2, false⟩], [⟨1, true⟩, ⟨2, true⟩]], []⟩

/-- Claim C4, counterexample: `preprocess` returns the same boolean on a
final state whose spec verdict is SAT (empty clause set) and on one whose
spec verdict is UNKNOWN, so its return value is not the claimed
three-valued verdict. -/
theorem claim4_counterexample :
    (preprocess exC4a).2.1 = (preprocess exC4b).2.1 ∧
    specVerdict (preprocess exC4a).1 = Verdict.SAT ∧
    specVerdict (preprocess exC4b).1 = Verdict.UNKNOWN := by
  decide

/-- Claim C4, amended: when the preprocessing loop completes, the boolean
`preprocess` returns is false exactly when an empty clause is present in
the final clause set (the UNSAT case), and true otherwise — conflating
the SAT case (empty clause set) with UNKNOWN; on a true return the final
state is additionally a fixpoint of unit propagation and pure-literal
elimination. -/
theorem claim4_bool_verdict (st st' : PreState) (r : Bool)
    (h : preprocess st = (st', r, true)) :
    (r = false ↔ [] ∈ st'.clauses) ∧
    (r = true → unitPropagate st' = (st', false) ∧
      pureLiteralElimination st' = (st', false)) := by
  unfold preprocess at h
  simp only [Prod.mk.injEq] at h
  obtain ⟨hst, hr, hdone⟩ := h
  have hloop : preprocessLoop (preFuel st) st =
      ((preprocessLoop (preFuel st) st).1,
       (preprocessLoop (preFuel st) st).2.1, true) := by
    rw [← hdone]
  obtain ⟨hiff, hfix⟩ := preprocessLoop_char (preFuel st) st _ _ hloop
  rw [hst] at hiff hfix hr
  rcases Bool.eq_false_or_eq_true
      ((preprocessLoop (preFuel st) st).2.1) with hflag | hflag
  · have hmem : [] ∈ st'.clauses := hiff.mp hflag
    have hie : st'.clauses.isEmpty = false := by
      cases hcl : st'.clauses with
      | nil => rw [hcl] at hmem; cases hmem
      | cons a t => rfl
    have hrf : r = false := by
      rw [← hr, hflag, hie]
      rfl
    refine ⟨⟨fun _ => hmem, fun _ => hrf⟩, ?_⟩
    intro hrt
    rw [hrf] at hrt
    cases hrt
  · have hnmem : [] ∉ st'.clauses := by
      intro hmem
      have hc := hiff.mpr hmem
      rw [hflag] at hc
      cases hc
    have hrt : r = true := by
      rw [← hr, hflag]
      cases hie : st'.clauses.isEmpty <;> rfl
    refine ⟨⟨?_, fun hmem => absurd hmem hnmem⟩, fun _ => hfix hflag⟩
    intro hrf
    rw [hrt] at hrf
    cases hrf

theorem claim4_witness :
    ((true : Bool) = false ↔ [] ∈ exC4b.clauses) ∧
    ((true : Bool) = true → unitPropagate exC4b = (exC4b, false) ∧
      pureLiteralElimination exC4b = (exC4b, false)) :=
  claim4_bool_verdict exC4b exC4b true (by decide)

/-! ### Claim C9: duplicate handling in the generator -/

def candsC9 : Nat → GClause := fun n => [[1], [1], [2], [-1]].getD n []

/-- Claim C9, counterexample: with dup limit 1, the consecutive-duplicate
counter reaches the limit after the second candidate, yet generation does
not abort there: it goes on to store all three requested clauses.
Generation aborts only on a further duplicate at the limit, not when the
counter reaches it. -/
theorem claim9_counterexample :
    (genRun candsC9 1 3 2 genInit).tries = 1 ∧
    (genRun candsC9 1 3 2 genInit).aborted = false ∧
    (genRun candsC9 1 3 2 genInit).stored = [[1]] ∧
    (blocksqbfGen candsC9 1 3).stored = [[1], [2], [-1]] ∧
    (blocksqbfGen candsC9 1 3).aborted = false := by
  decide

/-- Claim C9, amended: a duplicate candidate is discarded with the
consecutive-duplicate counter incremented; a fresh candidate is stored
and resets the counter; when a duplicate arrives while the counter
already equals `dup_limit`, generation aborts with the clauses stored so
far (possibly fewer than requested), and an aborted run emits exactly
those clauses. -/
theorem claim9_duplicate_handling (cands : Nat → GClause)
    (limit numClauses : Nat) (st : GenState) :
    (st.stored.contains (cands st.idx) = true → st.tries ≠ limit →
      genStep cands limit st =
        { st with tries := st.tries + 1, idx := st.idx + 1 }) ∧
    (st.stored.contains (cands st.idx) = false →
      genStep cands limit st =
        { st with stored := st.stored ++ [cands st.idx], tries := 0, idx := st.idx + 1 }) ∧
    (st.stored.contains (cands st.idx) = true → st.tries = limit →
      (genStep cands limit st).aborted = true ∧
      (genStep cands limit st).stored = st.stored) ∧
    (∀ n : Nat, st.aborted = true →
      genRun cands limit numClauses n st = st) := by
  refine ⟨?_, ?_, ?_, ?_⟩
  · intro hdup htries
    unfold genStep
    rw [if_pos hdup, if_neg htries]
  · intro hnew
    unfold genStep
    rw [if_neg (by rw [hnew]; exact Bool.false_ne_true)]
  · intro hdup htries
    unfold genStep
    rw [if_pos hdup, if_pos htries]
    exact ⟨rfl, rfl⟩
  · intro n habort
    cases n with
    | zero => rfl
    | succ n =>
      unfold genRun
      rw [if_pos (by rw [habort]; rfl)]

theorem claim9_witness :
    genStep candsC9 1 ⟨[[1]], 0, 1, false⟩ =
      { stored := [[1]], tries := 1, idx := 2, aborted := false } :=
  (claim9_duplicate_handling candsC9 1 3 ⟨[[1]], 0, 1, false⟩).1 (by decide)
    (by decide)

end QBF
